import Mathlib

/-
Verification of the OCR token core of the preview-ocr repository: the token
model, line normalizer, plain-text reducer and batch construction of
src/ocr.py, and the range-selection computation of src/main.py
(ImageViewer._setSelectedText).

Modelling conventions:
* Python floats are modelled as rationals: the modelled code only copies,
  compares, maxes and mins these values, so exact arithmetic matches the
  float computation on every value the code produces (IEEE rounding and
  inf/nan never arise in the modelled operations themselves).
* Python objects held in lists are modelled by their list positions.
  `fix_size_and_position` mutates `Text` objects in place through a grouping
  dict of references; here the token list is threaded explicitly and indices
  play the role of object identity, which is faithful because each row
  constructs a fresh object, so distinct positions are distinct objects.
* Python exceptions are modelled with `Except`.
-/

structure Text where
  level : Int
  page : Int
  block : Int
  paragraph : Int
  line : Int
  word : Int
  left : ℚ
  top : ℚ
  width : ℚ
  height : ℚ
  conf : String
  text : String
  deriving DecidableEq, Inhabited, Repr

/-- The grouping key `(i.page, i.paragraph, i.block, i.line)` used by
`fix_size_and_position` (src/ocr.py line 64). -/
abbrev LineKey := Int × Int × Int × Int

def lineKey (t : Text) : LineKey := (t.page, t.paragraph, t.block, t.line)

/-- Python `max` over a sequence, as applied to the heights of a line group
(src/ocr.py line 67). Python raises on an empty sequence; groups are never
empty, so the empty case carries a junk value. -/
def pymax : List ℚ → ℚ
  | [] => 0
  | x :: xs => xs.foldl max x

/-- Python `min` over a sequence, as applied to the tops of a line group
(src/ocr.py line 68). -/
def pymin : List ℚ → ℚ
  | [] => 0
  | x :: xs => xs.foldl min x

/-- One `group_by_line[key].append(i)` step of src/ocr.py line 64: a
`defaultdict` keyed by `LineKey` holding, in insertion order, the (indices
of the) tokens of each line. A fresh key is appended at the end, matching
dict insertion order. -/
def addToGroup : List (LineKey × List Nat) → LineKey → Nat → List (LineKey × List Nat)
  | [], k, i => [(k, [i])]
  | (k', is) :: gs, k, i =>
    if k' = k then (k', is ++ [i]) :: gs else (k', is) :: addToGroup gs k i

/-- The grouping loop `for i in text: group_by_line[...].append(i)`
(src/ocr.py lines 63-64), with `n` the index of the first element of the
remaining list. -/
def groupRows : Nat → List Text → List (LineKey × List Nat) → List (LineKey × List Nat)
  | _, [], gs => gs
  | n, t :: ts, gs => groupRows (n + 1) ts (addToGroup gs (lineKey t) n)

def groupByLine (text : List Text) : List (LineKey × List Nat) := groupRows 0 text []

/-- The in-place assignment `i.height = height; i.top = top` for the token at
position `i` (src/ocr.py lines 72-73). -/
def updAt (st : List Text) (i : Nat) (hh tp : ℚ) : List Text :=
  st.set i { st.getD i default with height := hh, top := tp }

/-- The body of `for group in group_by_line.values()` (src/ocr.py lines
66-73): read the group maximum height and minimum top from the current state,
then write them to every token of the group. -/
def applyGroup (st : List Text) (is : List Nat) : List Text :=
  let hh := pymax (is.map fun i => (st.getD i default).height)
  let tp := pymin (is.map fun i => (st.getD i default).top)
  is.foldl (fun s i => updAt s i hh tp) st

/-- `fix_size_and_position` (src/ocr.py lines 61-81): group tokens by
`(page, paragraph, block, line)`, then unify each group's height to the group
maximum and its top to the group minimum. The commented-out width adjustment
in the source is never executed and is not modelled. -/
def fix_size_and_position (text : List Text) : List Text :=
  (groupByLine text).foldl (fun st g => applyGroup st g.2) text

/-- The tokens of `text` sharing line key `k`. -/
def lineGroup (text : List Text) (k : LineKey) : List Text :=
  text.filter fun u => decide (lineKey u = k)

/-- Per-element description of the normalizer: a token receives the maximum
height and minimum top of its line group, other fields untouched. Proved
equal to `fix_size_and_position` below. -/
def normLine (text : List Text) (t : Text) : Text :=
  { t with height := pymax ((lineGroup text (lineKey t)).map Text.height),
           top := pymin ((lineGroup text (lineKey t)).map Text.top) }

def normalizeSpec (text : List Text) : List Text := text.map (normLine text)

/-- Python whitespace for `str.strip`, restricted to the ASCII whitespace
characters (exotic Unicode spaces never occur in the modelled data). -/
def isPySpace (c : Char) : Bool :=
  c = ' ' || c = '\t' || c = '\n' || c = '\r' || c = '\x0b' || c = '\x0c'

/-- `str.strip()` on a character list: drop whitespace from both ends. -/
def stripChars (l : List Char) : List Char :=
  ((l.dropWhile isPySpace).reverse.dropWhile isPySpace).reverse

/-- `str.strip()`. -/
def pyStrip (s : String) : String := String.mk (stripChars s.data)

/-- The loop of `get_plain_text` (src/ocr.py lines 90-97): `line` holds the
`line` value of the previous token (`none` initially); each token contributes
its separator and raw text to the joined character list. In the source the
`line` variable is reassigned only in the newline branch, mirrored here. -/
def plainLoop : Option Int → List Text → List Char
  | _, [] => []
  | line, t :: rest =>
    if line ≠ some t.line then '\n' :: (t.text.data ++ plainLoop (some t.line) rest)
    else ' ' :: (t.text.data ++ plainLoop line rest)

/-- `get_plain_text` (src/ocr.py lines 84-99). -/
def get_plain_text (text : List Text) : String :=
  if text.length = 0 then "" else String.mk (stripChars (plainLoop none text))

/-- Reference algorithm of spec §4.4 for the tokens after the first: before
each one a newline exactly when its `line` field differs from the previous
token's `line` field, a single space otherwise. -/
def specTail : Int → List Text → List Char
  | _, [] => []
  | prev, t :: rest =>
    (if t.line ≠ prev then '\n' else ' ') :: (t.text.data ++ specTail t.line rest)

/-- Reference algorithm of spec §4.4: no separator before the first token,
raw token texts, one final trim; empty input gives the empty string. -/
def specReduce : List Text → String
  | [] => ""
  | t :: rest => String.mk (stripChars (t.text.data ++ specTail t.line rest))

/- Numeric field parsing (Python `int()` / `float()`), src/ocr.py lines 34-43.
Restricted to the ASCII decimal grammar: optional surrounding whitespace,
optional sign, digits, and for floats an optional fractional part and
exponent. PEP-515 underscore separators, non-ASCII digits and the special
float spellings inf/infinity/nan are outside this model; nothing modelled
here depends on them. -/

def digitVal (c : Char) : Nat := c.toNat - Char.toNat '0'

def digitsVal (l : List Char) : Nat := l.foldl (fun acc c => 10 * acc + digitVal c) 0

/-- Consume a maximal nonempty digit prefix: value, digit count, rest. -/
def takeDigits (l : List Char) : Option (Nat × Nat × List Char) :=
  let ds := l.takeWhile Char.isDigit
  if ds = [] then none else some (digitsVal ds, ds.length, l.dropWhile Char.isDigit)

/-- Python `int(s)` for ASCII decimal strings. -/
def pyInt (s : String) : Option Int :=
  let l := stripChars s.data
  let sb : Int × List Char :=
    match l with
    | '+' :: r => (1, r)
    | '-' :: r => (-1, r)
    | _ => (1, l)
  match takeDigits sb.2 with
  | some (v, _, rest) => if rest = [] then some (sb.1 * v) else none
  | none => none

/-- The mantissa of a float literal, `digits [. [digits]]` or `. digits`:
its digit value, its number of fractional digits, and the rest of the input
(the mantissa's value is the digit value divided by ten to the fractional
digit count). -/
def parseMantissa (l : List Char) : Option (Nat × Nat × List Char) :=
  match takeDigits l with
  | some (v, _, rest) =>
    match rest with
    | '.' :: rest2 =>
      match takeDigits rest2 with
      | some (f, n, rest3) => some (v * 10 ^ n + f, n, rest3)
      | none => some (v, 0, rest2)
    | _ => some (v, 0, rest)
  | none =>
    match l with
    | '.' :: rest2 =>
      match takeDigits rest2 with
      | some (f, n, rest3) => some (f, n, rest3)
      | none => none
    | _ => none

/-- An optional exponent part `(e|E) [sign] digits`: the exponent and the
rest of the input. -/
def parseExp (l : List Char) : Option (Int × List Char) :=
  match l with
  | [] => some (0, [])
  | c :: rest =>
    if c = 'e' ∨ c = 'E' then
      match rest with
      | '+' :: r2 => (takeDigits r2).map fun p => ((p.1 : Int), p.2.2)
      | '-' :: r2 => (takeDigits r2).map fun p => (-(p.1 : Int), p.2.2)
      | _ => (takeDigits rest).map fun p => ((p.1 : Int), p.2.2)
    else some (0, l)

/-- Python `float(s)` for finite ASCII decimal strings, with exact rational
value `sign * mantissa * 10 ^ exponent` (the modelled code performs no
arithmetic that could observe IEEE rounding). -/
def pyFloat (s : String) : Option ℚ :=
  let l := stripChars s.data
  let sb : Int × List Char :=
    match l with
    | '+' :: r => (1, r)
    | '-' :: r => (-1, r)
    | _ => (1, l)
  match parseMantissa sb.2 with
  | some (m, n, rest) =>
    match parseExp rest with
    | some (e, rest2) =>
      if rest2 = [] then
        some (if 0 ≤ e then mkRat (sb.1 * (m : Int) * (10 : Int) ^ e.toNat) (10 ^ n)
              else mkRat (sb.1 * (m : Int)) (10 ^ n * 10 ^ (-e).toNat))
      else none
    | none => none
  | none => none

/-- A raw OCR record: the named string fields of one row, as produced by the
external tab-separated adapter (spec §6). Modelled as an association list
with the first binding of a key authoritative (the reader emits distinct
keys). -/
abbrev Row := List (String × String)

/-- The exceptions token construction can raise, `MalformedRecord` in the
spec: Python `KeyError` for a missing field, `ValueError` for a failed
numeric parse. -/
inductive MalformedRecord where
  | keyError (field : String)
  | valueError (field : String)
  deriving DecidableEq, Repr

/-- `row[k]`, raising `KeyError` when the field is absent. -/
def rowGet : Row → String → Except MalformedRecord String
  | [], k => .error (.keyError k)
  | (k', v) :: r, k => if k' = k then .ok v else rowGet r k

/-- `int(row[k])`. -/
def getIntField (row : Row) (k : String) : Except MalformedRecord Int :=
  match rowGet row k with
  | .error e => .error e
  | .ok v =>
    match pyInt v with
    | some n => .ok n
    | none => .error (.valueError k)

/-- `float(row[k])`. -/
def getFloatField (row : Row) (k : String) : Except MalformedRecord ℚ :=
  match rowGet row k with
  | .error e => .error e
  | .ok v =>
    match pyFloat v with
    | some q => .ok q
    | none => .error (.valueError k)

/-- `Text.from_row` (src/ocr.py lines 31-46), fields evaluated in source
order, any exception propagating. -/
def from_row (row : Row) : Except MalformedRecord Text := do
  let level ← getIntField row "level"
  let page ← getIntField row "page_num"
  let block ← getIntField row "block_num"
  let paragraph ← getIntField row "par_num"
  let line ← getIntField row "line_num"
  let word ← getIntField row "word_num"
  let left ← getFloatField row "left"
  let top ← getFloatField row "top"
  let width ← getFloatField row "width"
  let height ← getFloatField row "height"
  let conf ← rowGet row "conf"
  let text ← rowGet row "text"
  return { level := level, page := page, block := block, paragraph := paragraph,
           line := line, word := word, left := left, top := top, width := width,
           height := height, conf := conf, text := text }

/-- `list(map(Text.from_row, rows))` as forced inside `get_text` (src/ocr.py
line 53 together with line 58): construct a token from every row in order,
the first exception aborting the whole batch. -/
def rowsToTokens : List Row → Except MalformedRecord (List Text)
  | [] => .ok []
  | r :: rs =>
    match from_row r with
    | .error e => .error e
    | .ok t =>
      match rowsToTokens rs with
      | .error e => .error e
      | .ok ts => .ok (t :: ts)

/-- `get_text` (src/ocr.py lines 49-58) from the row boundary on: the image
decoding and OCR invocation of lines 50-52 are external collaborators (spec
§6) that yield the raw rows. When `include_empty` is false (its default
value), `filter(lambda i: i.text.strip(), text)` drops the tokens whose
stripped text is empty; `list()` forces construction of every token either
way before the filter predicate can run on it. -/
def get_text (rows : List Row) (include_empty : Bool := false) :
    Except MalformedRecord (List Text) :=
  match rowsToTokens rows with
  | .error e => .error e
  | .ok text =>
    .ok (if include_empty then text else text.filter fun i => decide (pyStrip i.text ≠ ""))

/-- `list.index` (Python): index of the first occurrence, `none` where Python
raises `ValueError`. In the source the lookup runs over
`ImageViewer._textRectItems`, one rect item per token in token order and
compared by object identity; values at distinct positions stand in for the
distinct objects. -/
def pyIndex : List Text → Text → Option Nat
  | [], _ => none
  | u :: us, t => if u = t then some 0 else (pyIndex us t).map (· + 1)

/-- The selection failure of spec §7. -/
inductive SelectionError where
  | unknownToken
  deriving DecidableEq, Repr

/-- The comprehension `[rect for i, rect in enumerate(...) if start <= i <= end]`
(src/main.py lines 294-296), with `n` the index of the head of the remaining
list. -/
def filterRange : Nat → Nat → Nat → List Text → List Text
  | _, _, _, [] => []
  | n, lo, hi, t :: ts =>
    (if lo ≤ n ∧ n ≤ hi then [t] else []) ++ filterRange (n + 1) lo hi ts

/-- The range computation of `ImageViewer._setSelectedText` (src/main.py
lines 291-296): resolve both tokens to indices (`UnknownToken` when either is
absent), sort the two indices, keep the inclusive index range. -/
def selectRange (seq : List Text) (a b : Text) : Except SelectionError (List Text) :=
  match pyIndex seq a, pyIndex seq b with
  | some i, some j => .ok (filterRange 0 (min i j) (max i j) seq)
  | _, _ => .error .unknownToken

deriving instance DecidableEq for Except

/- Sample data, matching the end-to-end scenario of spec §8. -/

def tokA : Text :=
  { level := 5, page := 1, block := 1, paragraph := 1, line := 1, word := 1,
    left := 10, top := 100, width := 40, height := 10, conf := "96", text := "Hello" }

def tokB : Text :=
  { level := 5, page := 1, block := 1, paragraph := 1, line := 1, word := 2,
    left := 60, top := 98, width := 45, height := 14, conf := "95", text := "world" }

def tokC : Text :=
  { level := 5, page := 1, block := 1, paragraph := 1, line := 2, word := 1,
    left := 10, top := 140, width := 30, height := 12, conf := "97", text := "Foo" }

def rowA : Row :=
  [("level", "5"), ("page_num", "1"), ("block_num", "1"), ("par_num", "1"),
   ("line_num", "1"), ("word_num", "1"), ("left", "10"), ("top", "100"),
   ("width", "40"), ("height", "10"), ("conf", "96"), ("text", "Hello")]

def rowWS : Row :=
  [("level", "5"), ("page_num", "1"), ("block_num", "1"), ("par_num", "1"),
   ("line_num", "1"), ("word_num", "2"), ("left", "60"), ("top", "98"),
   ("width", "45"), ("height", "14"), ("conf", "95"), ("text", "   ")]

def rowBad : Row :=
  [("page_num", "1"), ("block_num", "1"), ("par_num", "1"),
   ("line_num", "1"), ("word_num", "3"), ("left", "90"), ("top", "98"),
   ("width", "45"), ("height", "14"), ("conf", "95"), ("text", "   ")]

/- Characterization of the grouping dict built by `groupRows`: `groupsToFun`
reads the bucket of a key (the first entry wins, and keys stay distinct), and
`idxFrom` lists the positions at which a key occurs. -/

def keysOf (gs : List (LineKey × List Nat)) : List LineKey := gs.map Prod.fst

def groupsToFun : List (LineKey × List Nat) → LineKey → List Nat
  | [], _ => []
  | (k', is) :: gs, k => if k' = k then is else groupsToFun gs k

/-- The indices at which the remaining tokens (whose head sits at position
`n`) carry line key `k`. -/
def idxFrom : Nat → List Text → LineKey → List Nat
  | _, [], _ => []
  | n, t :: ts, k => (if lineKey t = k then [n] else []) ++ idxFrom (n + 1) ts k

/-- Whether an `Except` value carries a result (Python: no exception). -/
def exceptIsOk {ε α : Type} : Except ε α → Bool
  | .ok _ => true
  | .error _ => false

/-- All the field accesses and numeric conversions of `Text.from_row` succeed
on this row: every required field is present and every numeric field parses. -/
def goodRow (row : Row) : Bool :=
  exceptIsOk (getIntField row "level") && exceptIsOk (getIntField row "page_num")
  && exceptIsOk (getIntField row "block_num") && exceptIsOk (getIntField row "par_num")
  && exceptIsOk (getIntField row "line_num") && exceptIsOk (getIntField row "word_num")
  && exceptIsOk (getFloatField row "left") && exceptIsOk (getFloatField row "top")
  && exceptIsOk (getFloatField row "width") && exceptIsOk (getFloatField row "height")
  && exceptIsOk (rowGet row "conf") && exceptIsOk (rowGet row "text")

def sampleTokens : List Text := [tokA, tokB, tokC]

def tokWS : Text :=
  { level := 5, page := 1, block := 1, paragraph := 1, line := 1, word := 2,
    left := 60, top := 98, width := 45, height := 14, conf := "95", text := "   " }

/- Basic facts about `pymax` and `pymin`. -/

theorem seed_le_foldl_max (xs : List ℚ) (x : ℚ) : x ≤ xs.foldl max x := by
  induction xs generalizing x with
  | nil => exact le_refl x
  | cons y ys ih => exact le_trans (le_max_left x y) (ih (max x y))

theorem mem_le_foldl_max (xs : List ℚ) (x z : ℚ) (hz : z ∈ xs) : z ≤ xs.foldl max x := by
  induction xs generalizing x with
  | nil => cases hz
  | cons y ys ih =>
    rcases List.mem_cons.mp hz with rfl | hz
    · exact le_trans (le_max_right x z) (seed_le_foldl_max ys (max x z))
    · exact ih (max x y) hz

theorem foldl_max_mem (xs : List ℚ) (x : ℚ) : xs.foldl max x ∈ x :: xs := by
  induction xs generalizing x with
  | nil => exact List.mem_singleton.mpr rfl
  | cons y ys ih =>
    rw [List.foldl_cons]
    rcases List.mem_cons.mp (ih (max x y)) with h' | h'
    · rw [h']
      rcases max_choice x y with hm | hm <;> rw [hm] <;> simp
    · simp [h']

theorem le_pymax (l : List ℚ) (z : ℚ) (hz : z ∈ l) : z ≤ pymax l := by
  cases l with
  | nil => cases hz
  | cons x xs =>
    rcases List.mem_cons.mp hz with rfl | hz
    · exact seed_le_foldl_max xs z
    · exact mem_le_foldl_max xs x z hz

theorem pymax_mem (l : List ℚ) (h : l ≠ []) : pymax l ∈ l := by
  cases l with
  | nil => exact absurd rfl h
  | cons x xs => exact foldl_max_mem xs x

theorem foldl_min_le_seed (xs : List ℚ) (x : ℚ) : xs.foldl min x ≤ x := by
  induction xs generalizing x with
  | nil => exact le_refl x
  | cons y ys ih => exact le_trans (ih (min x y)) (min_le_left x y)

theorem foldl_min_le_mem (xs : List ℚ) (x z : ℚ) (hz : z ∈ xs) : xs.foldl min x ≤ z := by
  induction xs generalizing x with
  | nil => cases hz
  | cons y ys ih =>
    rcases List.mem_cons.mp hz with rfl | hz
    · exact le_trans (foldl_min_le_seed ys (min x z)) (min_le_right x z)
    · exact ih (min x y) hz

theorem foldl_min_mem (xs : List ℚ) (x : ℚ) : xs.foldl min x ∈ x :: xs := by
  induction xs generalizing x with
  | nil => exact List.mem_singleton.mpr rfl
  | cons y ys ih =>
    rw [List.foldl_cons]
    rcases List.mem_cons.mp (ih (min x y)) with h' | h'
    · rw [h']
      rcases min_choice x y with hm | hm <;> rw [hm] <;> simp
    · simp [h']

theorem pymin_le (l : List ℚ) (z : ℚ) (hz : z ∈ l) : pymin l ≤ z := by
  cases l with
  | nil => cases hz
  | cons x xs =>
    rcases List.mem_cons.mp hz with rfl | hz
    · exact foldl_min_le_seed xs z
    · exact foldl_min_le_mem xs x z hz

theorem pymin_mem (l : List ℚ) (h : l ≠ []) : pymin l ∈ l := by
  cases l with
  | nil => exact absurd rfl h
  | cons x xs => exact foldl_min_mem xs x

theorem pymax_of_all_eq (l : List ℚ) (c : ℚ) (h : l ≠ []) (hc : ∀ z ∈ l, z = c) :
    pymax l = c :=
  hc (pymax l) (pymax_mem l h)

theorem pymin_of_all_eq (l : List ℚ) (c : ℚ) (h : l ≠ []) (hc : ∀ z ∈ l, z = c) :
    pymin l = c :=
  hc (pymin l) (pymin_mem l h)

/- Plain-text reduction (src/ocr.py lines 84-99). -/

theorem keysOf_nil : keysOf [] = [] := rfl

theorem keysOf_cons (p : LineKey × List Nat) (gs : List (LineKey × List Nat)) :
    keysOf (p :: gs) = p.1 :: keysOf gs := rfl

theorem groupsToFun_addToGroup (gs : List (LineKey × List Nat)) (k : LineKey) (i : Nat)
    (k' : LineKey) :
    groupsToFun (addToGroup gs k i) k' =
      if k' = k then groupsToFun gs k' ++ [i] else groupsToFun gs k' := by
  induction gs with
  | nil =>
    rcases eq_or_ne k' k with h | h
    · subst h; simp [addToGroup, groupsToFun]
    · simp [addToGroup, groupsToFun, h, h.symm]
  | cons p gs ih =>
    obtain ⟨k0, is0⟩ := p
    rcases eq_or_ne k0 k with hk | hk
    · subst hk
      rcases eq_or_ne k' k0 with h | h
      · subst h; simp [addToGroup, groupsToFun]
      · simp [addToGroup, groupsToFun, h, h.symm]
    · rcases eq_or_ne k0 k' with h | h
      · subst h
        simp [addToGroup, groupsToFun, hk]
      · simp [addToGroup, groupsToFun, hk, h, ih]

theorem keysOf_addToGroup (gs : List (LineKey × List Nat)) (k : LineKey) (i : Nat) :
    keysOf (addToGroup gs k i) =
      if k ∈ keysOf gs then keysOf gs else keysOf gs ++ [k] := by
  induction gs with
  | nil => simp [addToGroup, keysOf]
  | cons p gs ih =>
    obtain ⟨k0, is0⟩ := p
    rcases eq_or_ne k0 k with hk | hk
    · subst hk; simp [addToGroup, keysOf_cons]
    · rcases Decidable.em (k ∈ keysOf gs) with hm | hm <;>
        simp [addToGroup, keysOf_cons, hk, hk.symm, ih, hm]

theorem nodup_keysOf_addToGroup (gs : List (LineKey × List Nat)) (k : LineKey) (i : Nat)
    (h : (keysOf gs).Nodup) : (keysOf (addToGroup gs k i)).Nodup := by
  rw [keysOf_addToGroup]
  rcases Decidable.em (k ∈ keysOf gs) with hm | hm
  · simpa [hm] using h
  · rw [if_neg hm]
    refine List.Nodup.append h (List.nodup_singleton k) ?_
    intro a ha hb
    rw [List.mem_singleton] at hb
    subst hb
    exact hm ha

theorem groupRows_groupsToFun (ts : List Text) :
    ∀ (n : Nat) (gs : List (LineKey × List Nat)) (k : LineKey),
      groupsToFun (groupRows n ts gs) k = groupsToFun gs k ++ idxFrom n ts k := by
  induction ts with
  | nil => intro n gs k; simp [groupRows, idxFrom]
  | cons t ts ih =>
    intro n gs k
    rw [groupRows, ih, groupsToFun_addToGroup]
    rcases eq_or_ne k (lineKey t) with h | h
    · simp [idxFrom, h]
    · simp [idxFrom, h, h.symm]

theorem groupRows_keys_nodup (ts : List Text) :
    ∀ (n : Nat) (gs : List (LineKey × List Nat)),
      (keysOf gs).Nodup → (keysOf (groupRows n ts gs)).Nodup := by
  induction ts with
  | nil => intro n gs h; simpa [groupRows] using h
  | cons t ts ih =>
    intro n gs h
    exact ih (n + 1) _ (nodup_keysOf_addToGroup gs (lineKey t) n h)

theorem groupsToFun_of_mem (gs : List (LineKey × List Nat)) (k : LineKey) (is : List Nat)
    (hnd : (keysOf gs).Nodup) (hmem : (k, is) ∈ gs) : groupsToFun gs k = is := by
  induction gs with
  | nil => cases hmem
  | cons p gs ih =>
    obtain ⟨k0, is0⟩ := p
    rcases List.mem_cons.mp hmem with heq | hmem'
    · cases heq; simp [groupsToFun]
    · have hnd' := List.nodup_cons.mp (by simpa [keysOf_cons] using hnd)
      have hk0 : k0 ≠ k := by
        intro hh
        subst hh
        exact hnd'.1 (List.mem_map_of_mem Prod.fst hmem')
      simp only [groupsToFun, if_neg hk0]
      exact ih hnd'.2 hmem'

theorem mem_keysOf_of_groupsToFun_ne_nil (gs : List (LineKey × List Nat)) (k : LineKey)
    (h : groupsToFun gs k ≠ []) : k ∈ keysOf gs := by
  induction gs with
  | nil => simp [groupsToFun] at h
  | cons p gs ih =>
    obtain ⟨k0, is0⟩ := p
    rcases eq_or_ne k0 k with hk | hk
    · subst hk; simp [keysOf_cons]
    · simp only [groupsToFun, if_neg hk] at h
      rw [keysOf_cons]
      exact List.mem_cons.mpr (Or.inr (ih h))

theorem mem_idxFrom_bound (ts : List Text) :
    ∀ (n i : Nat) (k : LineKey), i ∈ idxFrom n ts k →
      n ≤ i ∧ i - n < ts.length ∧ lineKey (ts.getD (i - n) default) = k := by
  induction ts with
  | nil => intro n i k h; simp [idxFrom] at h
  | cons t ts ih =>
    intro n i k h
    rw [idxFrom] at h
    rcases List.mem_append.mp h with h1 | h1
    · rcases Decidable.em (lineKey t = k) with hk | hk
      · rw [if_pos hk, List.mem_singleton] at h1
        subst h1
        exact ⟨le_refl _, by simp, by simpa using hk⟩
      · rw [if_neg hk] at h1
        cases h1
    · obtain ⟨hn, hlt, hkey⟩ := ih (n + 1) i k h1
      refine ⟨by omega, by simp; omega, ?_⟩
      have hin : i - n = (i - (n + 1)) + 1 := by omega
      rw [hin, List.getD_cons_succ]
      exact hkey

theorem mem_idxFrom_of (ts : List Text) :
    ∀ (n j : Nat) (k : LineKey), j < ts.length → lineKey (ts.getD j default) = k →
      (n + j) ∈ idxFrom n ts k := by
  induction ts with
  | nil => intro n j k h; simp at h
  | cons t ts ih =>
    intro n j k hj hkey
    rw [idxFrom]
    cases j with
    | zero =>
      refine List.mem_append.mpr (Or.inl ?_)
      rw [List.getD_cons_zero] at hkey
      simp [hkey]
    | succ m =>
      refine List.mem_append.mpr (Or.inr ?_)
      have : n + (m + 1) = (n + 1) + m := by omega
      rw [this]
      refine ih (n + 1) m k (by simpa using hj) ?_
      simpa [List.getD_cons_succ] using hkey

theorem idxFrom_map_getD (k : LineKey) (full : List Text) (ts : List Text) :
    ∀ n : Nat, (∀ j, j < ts.length → full.getD (n + j) default = ts.getD j default) →
      (idxFrom n ts k).map (fun i => full.getD i default) =
        ts.filter (fun u => decide (lineKey u = k)) := by
  induction ts with
  | nil => intro n hfull; simp [idxFrom]
  | cons t ts ih =>
    intro n hfull
    have h0 : full.getD n default = t := by
      have := hfull 0 (by simp)
      simpa using this
    have hrec : ∀ j, j < ts.length → full.getD ((n + 1) + j) default = ts.getD j default := by
      intro j hj
      have := hfull (j + 1) (by simp; omega)
      rw [show n + (j + 1) = (n + 1) + j by omega] at this
      simpa [List.getD_cons_succ] using this
    rw [idxFrom, List.map_append, ih (n + 1) hrec]
    rcases Decidable.em (lineKey t = k) with hk | hk
    · rw [if_pos hk]
      simp only [List.map_cons, List.map_nil]
      rw [h0, List.filter_cons, if_pos (by simpa using hk)]
      rfl
    · rw [if_neg hk]
      rw [List.filter_cons, if_neg (by simpa using hk)]
      rfl

/- Effect of the in-place writes on the threaded list. -/

theorem getD_set_self (l : List Text) :
    ∀ (i : Nat) (a : Text), i < l.length → (l.set i a).getD i default = a := by
  induction l with
  | nil => intro i a h; simp at h
  | cons x xs ih =>
    intro i a h
    cases i with
    | zero => rfl
    | succ n => simpa [List.getD_cons_succ] using ih n a (by simpa using h)

theorem getD_set_ne (l : List Text) :
    ∀ (i j : Nat) (a : Text), i ≠ j → (l.set i a).getD j default = l.getD j default := by
  induction l with
  | nil => intro i j a h; rfl
  | cons x xs ih =>
    intro i j a h
    cases i with
    | zero =>
      cases j with
      | zero => exact absurd rfl h
      | succ m => simp [List.getD_cons_succ]
    | succ n =>
      cases j with
      | zero => simp [List.getD_cons_zero]
      | succ m =>
        simpa [List.getD_cons_succ] using ih n m a (fun hh => h (by rw [hh]))

theorem length_updAt (st : List Text) (i : Nat) (hh tp : ℚ) :
    (updAt st i hh tp).length = st.length := by
  simp [updAt]

theorem getD_updAt_self (st : List Text) (i : Nat) (hh tp : ℚ) (h : i < st.length) :
    (updAt st i hh tp).getD i default =
      { st.getD i default with height := hh, top := tp } :=
  getD_set_self st i _ h

theorem getD_updAt_ne (st : List Text) (i j : Nat) (hh tp : ℚ) (h : i ≠ j) :
    (updAt st i hh tp).getD j default = st.getD j default :=
  getD_set_ne st i j _ h

theorem length_foldl_updAt (is : List Nat) :
    ∀ (st : List Text) (hh tp : ℚ),
      (is.foldl (fun s i => updAt s i hh tp) st).length = st.length := by
  induction is with
  | nil => intro st hh tp; rfl
  | cons i is ih =>
    intro st hh tp
    rw [List.foldl_cons, ih, length_updAt]

theorem getD_foldl_updAt (is : List Nat) :
    ∀ (st : List Text) (hh tp : ℚ) (j : Nat), j < st.length →
      (is.foldl (fun s i => updAt s i hh tp) st).getD j default =
        if j ∈ is then { st.getD j default with height := hh, top := tp }
        else st.getD j default := by
  induction is with
  | nil => intro st hh tp j hj; simp
  | cons i is ih =>
    intro st hh tp j hj
    have hj' : j < (updAt st i hh tp).length := by rw [length_updAt]; exact hj
    rw [List.foldl_cons, ih (updAt st i hh tp) hh tp j hj']
    rcases eq_or_ne i j with rfl | hij
    · rcases Decidable.em (i ∈ is) with hm | hm
      · rw [if_pos hm, if_pos (List.mem_cons_self _ _), getD_updAt_self st _ hh tp hj]
      · rw [if_neg hm, if_pos (List.mem_cons_self _ _)]
        exact getD_updAt_self st _ hh tp hj
    · rw [getD_updAt_ne st i j hh tp hij]
      rcases Decidable.em (j ∈ is) with hm | hm
      · rw [if_pos hm, if_pos (List.mem_cons_of_mem i hm)]
      · rw [if_neg hm, if_neg (by simp [List.mem_cons, Ne.symm hij, hm])]

theorem length_applyGroup (st : List Text) (is : List Nat) :
    (applyGroup st is).length = st.length :=
  length_foldl_updAt is st _ _

theorem getD_applyGroup (st : List Text) (is : List Nat) (j : Nat) (hj : j < st.length) :
    (applyGroup st is).getD j default =
      if j ∈ is then
        { st.getD j default with
            height := pymax (is.map fun i => (st.getD i default).height),
            top := pymin (is.map fun i => (st.getD i default).top) }
      else st.getD j default :=
  getD_foldl_updAt is st _ _ j hj

theorem length_foldl_applyGroup (gl : List (LineKey × List Nat)) :
    ∀ st : List Text, (gl.foldl (fun s g => applyGroup s g.2) st).length = st.length := by
  induction gl with
  | nil => intro st; rfl
  | cons g gl ih =>
    intro st
    rw [List.foldl_cons, ih, length_applyGroup]

theorem keysOf_cons_pair (k : LineKey) (is : List Nat) (gs : List (LineKey × List Nat)) :
    keysOf ((k, is) :: gs) = k :: keysOf gs := rfl

/-- Processing the remaining groups `gl` from state `st`: tokens whose key
belongs to `gl` end up normalized, the rest keep their state value. The
hypotheses say that `gl` is a sound remainder of the grouping dict: distinct
keys, exact index lists, and the tokens of pending groups still untouched. -/
theorem getD_foldl_applyGroup (text : List Text) :
    ∀ (gl : List (LineKey × List Nat)) (st : List Text),
      st.length = text.length →
      (keysOf gl).Nodup →
      (∀ p ∈ gl, p.2 = idxFrom 0 text p.1) →
      (∀ j, j < text.length → lineKey (text.getD j default) ∈ keysOf gl →
        st.getD j default = text.getD j default) →
      ∀ j, j < text.length →
        (gl.foldl (fun s g => applyGroup s g.2) st).getD j default =
          if lineKey (text.getD j default) ∈ keysOf gl
          then normLine text (text.getD j default)
          else st.getD j default := by
  intro gl
  induction gl with
  | nil => intro st _ _ _ _ j hj; simp [keysOf_nil]
  | cons g gl ih =>
    obtain ⟨k, is⟩ := g
    intro st hlen hnd hidx horig j hj
    have his : is = idxFrom 0 text k := hidx (k, is) (List.mem_cons_self _ _)
    have hmem_key : ∀ i, i ∈ is → i < text.length ∧ lineKey (text.getD i default) = k := by
      intro i hi
      rw [his] at hi
      obtain ⟨_, hlt, hkey⟩ := mem_idxFrom_bound text 0 i k hi
      constructor
      · simpa using hlt
      · simpa using hkey
    have hst_orig : ∀ i, i ∈ is → st.getD i default = text.getD i default := by
      intro i hi
      obtain ⟨hlt, hkey⟩ := hmem_key i hi
      refine horig i hlt ?_
      rw [hkey, keysOf_cons_pair]
      exact List.mem_cons_self _ _
    have hmap : is.map (fun i => st.getD i default) = lineGroup text k := by
      have h1 : is.map (fun i => st.getD i default) = is.map (fun i => text.getD i default) :=
        List.map_congr_left (fun i hi => hst_orig i hi)
      rw [h1, his]
      exact idxFrom_map_getD k text text 0 (by intro j2 hj2; simp)
    have hH : (is.map fun i => (st.getD i default).height) = (lineGroup text k).map Text.height := by
      rw [← hmap, List.map_map]
      rfl
    have hT : (is.map fun i => (st.getD i default).top) = (lineGroup text k).map Text.top := by
      rw [← hmap, List.map_map]
      rfl
    have hlen' : (applyGroup st is).length = text.length := by
      rw [length_applyGroup, hlen]
    have hnd0 := List.nodup_cons.mp (by rw [keysOf_cons_pair] at hnd; exact hnd)
    have hidx' : ∀ p ∈ gl, p.2 = idxFrom 0 text p.1 :=
      fun p hp => hidx p (List.mem_cons_of_mem _ hp)
    have horig' : ∀ j2, j2 < text.length → lineKey (text.getD j2 default) ∈ keysOf gl →
        (applyGroup st is).getD j2 default = text.getD j2 default := by
      intro j2 hj2 hmem
      have hne : lineKey (text.getD j2 default) ≠ k := fun hh => hnd0.1 (hh ▸ hmem)
      have hnotin : j2 ∉ is := fun hin => hne (hmem_key j2 hin).2
      rw [getD_applyGroup st is j2 (by rw [hlen]; exact hj2), if_neg hnotin]
      refine horig j2 hj2 ?_
      rw [keysOf_cons_pair]
      exact List.mem_cons_of_mem _ hmem
    have hres := ih (applyGroup st is) hlen' hnd0.2 hidx' horig' j hj
    rw [show List.foldl (fun s g => applyGroup s g.2) st ((k, is) :: gl)
          = List.foldl (fun s g => applyGroup s g.2) (applyGroup st is) gl from rfl]
    rw [hres]
    rcases Decidable.em (lineKey (text.getD j default) ∈ keysOf gl) with hm | hm
    · rw [if_pos hm, if_pos (by rw [keysOf_cons_pair]; exact List.mem_cons_of_mem _ hm)]
    · rcases eq_or_ne (lineKey (text.getD j default)) k with hkey | hkey
      · have hjin : j ∈ is := by
          rw [his]
          have hmm := mem_idxFrom_of text 0 j (lineKey (text.getD j default)) hj rfl
          rw [hkey] at hmm
          simpa using hmm
        rw [if_neg hm, if_pos (by rw [keysOf_cons_pair, hkey]; exact List.mem_cons_self _ _)]
        rw [getD_applyGroup st is j (by rw [hlen]; exact hj), if_pos hjin]
        rw [hst_orig j hjin, hH, hT]
        simp only [normLine, hkey]
      · have hjout : j ∉ is := fun hin => hkey ((hmem_key j hin).2)
        rw [if_neg hm, if_neg (by
          rw [keysOf_cons_pair]
          intro hc
          rcases List.mem_cons.mp hc with hc | hc
          exacts [hkey hc, hm hc])]
        rw [getD_applyGroup st is j (by rw [hlen]; exact hj), if_neg hjout]

theorem list_ext_getD (l₁ : List Text) :
    ∀ l₂ : List Text, l₁.length = l₂.length →
      (∀ j, j < l₁.length → l₁.getD j default = l₂.getD j default) → l₁ = l₂ := by
  induction l₁ with
  | nil =>
    intro l₂ hlen _
    cases l₂ with
    | nil => rfl
    | cons y ys => simp at hlen
  | cons x xs ih =>
    intro l₂ hlen h
    cases l₂ with
    | nil => simp at hlen
    | cons y ys =>
      have h0 : x = y := by
        have := h 0 (by simp)
        simpa [List.getD_cons_zero] using this
      have htail : xs = ys := by
        refine ih ys (by simpa using hlen) ?_
        intro j hj
        have := h (j + 1) (by simpa using Nat.succ_lt_succ hj)
        simpa [List.getD_cons_succ] using this
      rw [h0, htail]

theorem getD_map_text (f : Text → Text) (l : List Text) :
    ∀ j : Nat, j < l.length → (l.map f).getD j default = f (l.getD j default) := by
  induction l with
  | nil => intro j hj; simp at hj
  | cons x xs ih =>
    intro j hj
    cases j with
    | zero => rfl
    | succ m => simpa [List.getD_cons_succ] using ih m (by simpa using hj)

/-- Bridge: the dict-driven in-place normalizer computes exactly the
per-element description `normalizeSpec`. -/
theorem fix_size_and_position_eq_normalizeSpec (text : List Text) :
    fix_size_and_position text = normalizeSpec text := by
  have hnd : (keysOf (groupByLine text)).Nodup :=
    groupRows_keys_nodup text 0 [] (by rw [keysOf_nil]; exact List.nodup_nil)
  have hfun : ∀ k, groupsToFun (groupByLine text) k = idxFrom 0 text k := by
    intro k
    have h3 := groupRows_groupsToFun text 0 [] k
    rw [groupByLine]
    simpa [groupsToFun] using h3
  have hgs : ∀ p ∈ groupByLine text, p.2 = idxFrom 0 text p.1 := by
    intro p hp
    obtain ⟨k, is⟩ := p
    have h1 : groupsToFun (groupByLine text) k = is := groupsToFun_of_mem _ k is hnd hp
    show is = idxFrom 0 text k
    rw [← h1]
    exact hfun k
  have hlen : (fix_size_and_position text).length = text.length := by
    rw [show fix_size_and_position text
          = List.foldl (fun s g => applyGroup s g.2) text (groupByLine text) from rfl]
    exact length_foldl_applyGroup (groupByLine text) text
  refine list_ext_getD _ _ ?_ ?_
  · rw [hlen, normalizeSpec, List.length_map]
  · intro j hj
    have hj' : j < text.length := by rwa [hlen] at hj
    have hmain := getD_foldl_applyGroup text (groupByLine text) text rfl hnd hgs
      (fun _ _ _ => rfl) j hj'
    have hkey_mem : lineKey (text.getD j default) ∈ keysOf (groupByLine text) := by
      apply mem_keysOf_of_groupsToFun_ne_nil
      rw [hfun]
      intro hnil
      have hjmem := mem_idxFrom_of text 0 j (lineKey (text.getD j default)) hj' rfl
      rw [hnil] at hjmem
      simp at hjmem
    rw [show (fix_size_and_position text).getD j default
          = (List.foldl (fun s g => applyGroup s g.2) text (groupByLine text)).getD j default
        from rfl]
    rw [hmain, if_pos hkey_mem]
    rw [show normalizeSpec text = text.map (normLine text) from rfl]
    rw [getD_map_text (normLine text) text j hj']

/- Consequences of the bridge. -/

theorem length_fix (text : List Text) :
    (fix_size_and_position text).length = text.length := by
  rw [fix_size_and_position_eq_normalizeSpec, normalizeSpec, List.length_map]

theorem getD_fix (text : List Text) (j : Nat) (hj : j < text.length) :
    (fix_size_and_position text).getD j default = normLine text (text.getD j default) := by
  rw [fix_size_and_position_eq_normalizeSpec]
  exact getD_map_text (normLine text) text j hj

theorem getD_mem (l : List Text) : ∀ j, j < l.length → l.getD j default ∈ l := by
  induction l with
  | nil => intro j hj; simp at hj
  | cons x xs ih =>
    intro j hj
    cases j with
    | zero => exact List.mem_cons_self _ _
    | succ m =>
      rw [List.getD_cons_succ]
      exact List.mem_cons_of_mem _ (ih m (by simpa using hj))

theorem lineKey_of_mem_lineGroup (text : List Text) (k : LineKey) (u : Text)
    (h : u ∈ lineGroup text k) : lineKey u = k :=
  of_decide_eq_true (List.mem_filter.mp h).2

theorem mem_lineGroup_self (text : List Text) (t : Text) (ht : t ∈ text) :
    t ∈ lineGroup text (lineKey t) :=
  List.mem_filter.mpr ⟨ht, by simp⟩

theorem getD_mem_lineGroup (text : List Text) (j : Nat) (hj : j < text.length) :
    text.getD j default ∈ lineGroup text (lineKey (text.getD j default)) :=
  mem_lineGroup_self text _ (getD_mem text j hj)

theorem normLine_eq_self (text2 : List Text) (u : Text)
    (hH : pymax ((lineGroup text2 (lineKey u)).map Text.height) = u.height)
    (hT : pymin ((lineGroup text2 (lineKey u)).map Text.top) = u.top) :
    normLine text2 u = u := by
  show { u with height := pymax ((lineGroup text2 (lineKey u)).map Text.height),
                top := pymin ((lineGroup text2 (lineKey u)).map Text.top) } = u
  rw [hH, hT]

theorem lineGroup_normalizeSpec (text : List Text) (k : LineKey) :
    lineGroup (normalizeSpec text) k = (lineGroup text k).map (normLine text) := by
  show (text.map (normLine text)).filter (fun u => decide (lineKey u = k))
      = (text.filter (fun u => decide (lineKey u = k))).map (normLine text)
  rw [List.filter_map (normLine text) text]
  rfl

theorem normalizeSpec_idem (text : List Text) :
    normalizeSpec (normalizeSpec text) = normalizeSpec text := by
  show (normalizeSpec text).map (normLine (normalizeSpec text)) = normalizeSpec text
  have h : ∀ a ∈ normalizeSpec text, normLine (normalizeSpec text) a = a := by
    intro a ha
    rw [normalizeSpec] at ha
    obtain ⟨t, ht, rfl⟩ := List.mem_map.mp ha
    have hne : lineGroup text (lineKey t) ≠ [] :=
      List.ne_nil_of_mem (mem_lineGroup_self text t ht)
    refine normLine_eq_self _ _ ?_ ?_
    · rw [show lineKey (normLine text t) = lineKey t from rfl,
          lineGroup_normalizeSpec text (lineKey t), List.map_map]
      have hcong : (lineGroup text (lineKey t)).map (Text.height ∘ normLine text)
          = (lineGroup text (lineKey t)).map
              (fun _ => pymax ((lineGroup text (lineKey t)).map Text.height)) := by
        refine List.map_congr_left ?_
        intro u hu
        show pymax ((lineGroup text (lineKey u)).map Text.height) = _
        rw [lineKey_of_mem_lineGroup text (lineKey t) u hu]
      rw [hcong]
      refine pymax_of_all_eq _ _ ?_ ?_
      · intro hm
        exact hne (List.map_eq_nil_iff.mp hm)
      · intro z hz
        obtain ⟨u, _, rfl⟩ := List.mem_map.mp hz
        rfl
    · rw [show lineKey (normLine text t) = lineKey t from rfl,
          lineGroup_normalizeSpec text (lineKey t), List.map_map]
      have hcong : (lineGroup text (lineKey t)).map (Text.top ∘ normLine text)
          = (lineGroup text (lineKey t)).map
              (fun _ => pymin ((lineGroup text (lineKey t)).map Text.top)) := by
        refine List.map_congr_left ?_
        intro u hu
        show pymin ((lineGroup text (lineKey u)).map Text.top) = _
        rw [lineKey_of_mem_lineGroup text (lineKey t) u hu]
      rw [hcong]
      refine pymin_of_all_eq _ _ ?_ ?_
      · intro hm
        exact hne (List.map_eq_nil_iff.mp hm)
      · intro z hz
        obtain ⟨u, _, rfl⟩ := List.mem_map.mp hz
        rfl
  calc (normalizeSpec text).map (normLine (normalizeSpec text))
      = (normalizeSpec text).map id := List.map_congr_left h
    _ = normalizeSpec text := List.map_id _

/- Equivalence of the reducer loop with the spec algorithm. -/

theorem plainLoop_some (rest : List Text) :
    ∀ k : Int, plainLoop (some k) rest = specTail k rest := by
  induction rest with
  | nil => intro k; rfl
  | cons t rest ih =>
    intro k
    rcases eq_or_ne t.line k with h | h
    · rw [plainLoop, if_neg (by simp [h]), specTail, if_neg (by simp [h]), ih k, h]
    · rw [plainLoop, if_pos (by simp [Ne.symm h]), specTail, if_pos h, ih t.line]

theorem stripChars_newline (l : List Char) : stripChars ('\n' :: l) = stripChars l := by
  show ((('\n' :: l).dropWhile isPySpace).reverse.dropWhile isPySpace).reverse
      = ((l.dropWhile isPySpace).reverse.dropWhile isPySpace).reverse
  rw [List.dropWhile_cons, if_pos (by decide)]

theorem plainLoop_none (t : Text) (rest : List Text) :
    plainLoop none (t :: rest) = '\n' :: (t.text.data ++ specTail t.line rest) := by
  rw [plainLoop, if_pos (by simp), plainLoop_some rest t.line]

/- Resolution of tokens to indices (`list.index`). -/

theorem pyIndex_eq_none (seq : List Text) (t : Text) : pyIndex seq t = none ↔ t ∉ seq := by
  induction seq with
  | nil => simp [pyIndex]
  | cons u us ih =>
    rcases eq_or_ne u t with rfl | h
    · simp [pyIndex]
    · simp [pyIndex, h, Ne.symm h, Option.map_eq_none', ih]

theorem pyIndex_isSome_of_mem (seq : List Text) (t : Text) (h : t ∈ seq) :
    ∃ i, pyIndex seq t = some i := by
  rcases heq : pyIndex seq t with _ | i
  · exact absurd h ((pyIndex_eq_none seq t).mp heq)
  · exact ⟨i, rfl⟩

theorem pyIndex_spec (seq : List Text) (t : Text) :
    ∀ i, pyIndex seq t = some i → i < seq.length ∧ seq.getD i default = t := by
  induction seq with
  | nil => intro i h; simp [pyIndex] at h
  | cons u us ih =>
    intro i h
    rw [pyIndex] at h
    rcases eq_or_ne u t with rfl | hne
    · rw [if_pos rfl] at h
      obtain rfl : 0 = i := by simpa using h
      exact ⟨by simp, rfl⟩
    · rw [if_neg hne] at h
      rcases hmap : pyIndex us t with _ | i0
      · rw [hmap] at h; simp at h
      · rw [hmap] at h
        obtain rfl : i0 + 1 = i := by simpa using h
        obtain ⟨h1, h2⟩ := ih i0 hmap
        exact ⟨by simpa using Nat.succ_lt_succ h1, by simpa [List.getD_cons_succ] using h2⟩

theorem filterRange_eq_slice (lo hi : Nat) (hlohi : lo ≤ hi) (ts : List Text) :
    ∀ n : Nat, filterRange n lo hi ts = (ts.drop (lo - n)).take (hi + 1 - max lo n) := by
  induction ts with
  | nil => intro n; simp [filterRange]
  | cons t ts ih =>
    intro n
    rw [filterRange]
    rcases Nat.lt_or_ge n lo with hn | hn
    · rw [if_neg (by omega), ih (n + 1)]
      have h1 : lo - n = (lo - (n + 1)) + 1 := by omega
      have h2 : max lo (n + 1) = lo := by omega
      have h3 : max lo n = lo := by omega
      rw [h1, h2, h3, List.drop_succ_cons]
      rfl
    · rcases Nat.lt_or_ge hi n with hn2 | hn2
      · rw [if_neg (by omega), ih (n + 1)]
        have h2 : hi + 1 - max lo (n + 1) = 0 := by omega
        have h3 : hi + 1 - max lo n = 0 := by omega
        rw [h2, h3]
        simp
      · rw [if_pos ⟨hn, hn2⟩, ih (n + 1)]
        have h1 : lo - n = 0 := by omega
        have h2 : lo - (n + 1) = 0 := by omega
        have h3 : max lo n = n := by omega
        have h4 : max lo (n + 1) = n + 1 := by omega
        have h5 : hi + 1 - n = (hi - n) + 1 := by omega
        rw [h1, h2, h3, h4, h5, List.drop_zero, List.drop_zero, List.take_succ_cons]
        have h6 : hi + 1 - (n + 1) = hi - n := by omega
        rw [h6]
        rfl

theorem drop_take_one (l : List Text) :
    ∀ i, i < l.length → (l.drop i).take 1 = [l.getD i default] := by
  induction l with
  | nil => intro i hi; simp at hi
  | cons x xs ih =>
    intro i hi
    cases i with
    | zero => rfl
    | succ m => simpa [List.getD_cons_succ] using ih m (by simpa using hi)

/- Batch construction helpers. -/

theorem rowsToTokens_error_of_mem (rows : List Row) (r : Row) (hr : r ∈ rows)
    (he : ∃ e, from_row r = .error e) : ∃ e, rowsToTokens rows = .error e := by
  induction rows with
  | nil => cases hr
  | cons r0 rs ih =>
    rcases List.mem_cons.mp hr with rfl | hr'
    · obtain ⟨e, he⟩ := he
      exact ⟨e, by simp [rowsToTokens, he]⟩
    · rcases hfr : from_row r0 with e0 | t0
      · exact ⟨e0, by simp [rowsToTokens, hfr]⟩
      · obtain ⟨e, hrr⟩ := ih hr'
        exact ⟨e, by simp [rowsToTokens, hfr, hrr]⟩

theorem get_text_error_of_mem (rows : List Row) (r : Row) (b : Bool) (hr : r ∈ rows)
    (he : ∃ e, from_row r = .error e) : ∃ e, get_text rows b = .error e := by
  obtain ⟨e, h⟩ := rowsToTokens_error_of_mem rows r hr he
  exact ⟨e, by simp [get_text, h]⟩

theorem except_bind_ok {ε α β : Type} (a : α) (f : α → Except ε β) :
    ((Except.ok a : Except ε α) >>= f) = f a := rfl

theorem bind_eq_ok {ε α β : Type} (x : Except ε α) (f : α → Except ε β) (b : β)
    (h : (x >>= f) = .ok b) : ∃ a, x = .ok a ∧ f a = .ok b := by
  cases x with
  | error e =>
    rw [show ((Except.error e : Except ε α) >>= f) = (Except.error e : Except ε β) from rfl] at h
    cases h
  | ok a =>
    rw [except_bind_ok] at h
    exact ⟨a, rfl, h⟩

theorem exceptIsOk_of_ok {ε α : Type} (x : Except ε α) (a : α) (h : x = .ok a) :
    exceptIsOk x = true := by
  rw [h]
  rfl

theorem ok_of_exceptIsOk {ε α : Type} (x : Except ε α) (h : exceptIsOk x = true) :
    ∃ a, x = .ok a := by
  cases x with
  | error e => simp [exceptIsOk] at h
  | ok a => exact ⟨a, rfl⟩

theorem from_row_ok_iff (row : Row) : (∃ t, from_row row = .ok t) ↔ goodRow row = true := by
  constructor
  · rintro ⟨t, ht⟩
    rw [from_row] at ht
    obtain ⟨level, h1, ht⟩ := bind_eq_ok _ _ _ ht
    obtain ⟨page, h2, ht⟩ := bind_eq_ok _ _ _ ht
    obtain ⟨block, h3, ht⟩ := bind_eq_ok _ _ _ ht
    obtain ⟨paragraph, h4, ht⟩ := bind_eq_ok _ _ _ ht
    obtain ⟨line, h5, ht⟩ := bind_eq_ok _ _ _ ht
    obtain ⟨word, h6, ht⟩ := bind_eq_ok _ _ _ ht
    obtain ⟨left, h7, ht⟩ := bind_eq_ok _ _ _ ht
    obtain ⟨top, h8, ht⟩ := bind_eq_ok _ _ _ ht
    obtain ⟨width, h9, ht⟩ := bind_eq_ok _ _ _ ht
    obtain ⟨height, h10, ht⟩ := bind_eq_ok _ _ _ ht
    obtain ⟨conf, h11, ht⟩ := bind_eq_ok _ _ _ ht
    obtain ⟨txt, h12, ht⟩ := bind_eq_ok _ _ _ ht
    rw [goodRow]
    rw [exceptIsOk_of_ok _ _ h1, exceptIsOk_of_ok _ _ h2, exceptIsOk_of_ok _ _ h3,
        exceptIsOk_of_ok _ _ h4, exceptIsOk_of_ok _ _ h5, exceptIsOk_of_ok _ _ h6,
        exceptIsOk_of_ok _ _ h7, exceptIsOk_of_ok _ _ h8, exceptIsOk_of_ok _ _ h9,
        exceptIsOk_of_ok _ _ h10, exceptIsOk_of_ok _ _ h11, exceptIsOk_of_ok _ _ h12]
    rfl
  · intro hg
    rw [goodRow] at hg
    simp only [Bool.and_eq_true] at hg
    obtain ⟨⟨⟨⟨⟨⟨⟨⟨⟨⟨⟨g1, g2⟩, g3⟩, g4⟩, g5⟩, g6⟩, g7⟩, g8⟩, g9⟩, g10⟩, g11⟩, g12⟩ := hg
    obtain ⟨level, h1⟩ := ok_of_exceptIsOk _ g1
    obtain ⟨page, h2⟩ := ok_of_exceptIsOk _ g2
    obtain ⟨block, h3⟩ := ok_of_exceptIsOk _ g3
    obtain ⟨paragraph, h4⟩ := ok_of_exceptIsOk _ g4
    obtain ⟨line, h5⟩ := ok_of_exceptIsOk _ g5
    obtain ⟨word, h6⟩ := ok_of_exceptIsOk _ g6
    obtain ⟨left, h7⟩ := ok_of_exceptIsOk _ g7
    obtain ⟨top, h8⟩ := ok_of_exceptIsOk _ g8
    obtain ⟨width, h9⟩ := ok_of_exceptIsOk _ g9
    obtain ⟨height, h10⟩ := ok_of_exceptIsOk _ g10
    obtain ⟨conf, h11⟩ := ok_of_exceptIsOk _ g11
    obtain ⟨txt, h12⟩ := ok_of_exceptIsOk _ g12
    refine ⟨{ level := level, page := page, block := block, paragraph := paragraph,
              line := line, word := word, left := left, top := top, width := width,
              height := height, conf := conf, text := txt }, ?_⟩
    rw [from_row, h1, except_bind_ok, h2, except_bind_ok, h3, except_bind_ok,
        h4, except_bind_ok, h5, except_bind_ok, h6, except_bind_ok,
        h7, except_bind_ok, h8, except_bind_ok, h9, except_bind_ok,
        h10, except_bind_ok, h11, except_bind_ok, h12, except_bind_ok]
    rfl

/-- C1: after one run of the Line Normalizer, any two tokens with equal
`(page, paragraph, block, line)` key share one top and one height, the shared
height is the maximum height over the key's group, the shared top is the
minimum top over it, and the empty input is a no-op. -/
theorem fix_grouping_invariant (text : List Text) (i j : Nat)
    (hi : i < text.length) (hj : j < text.length)
    (hkey : lineKey ((fix_size_and_position text).getD i default)
          = lineKey ((fix_size_and_position text).getD j default)) :
    ((fix_size_and_position text).getD i default).top
        = ((fix_size_and_position text).getD j default).top
    ∧ ((fix_size_and_position text).getD i default).height
        = ((fix_size_and_position text).getD j default).height
    ∧ (∀ u ∈ lineGroup text (lineKey ((fix_size_and_position text).getD i default)),
        u.height ≤ ((fix_size_and_position text).getD i default).height
        ∧ ((fix_size_and_position text).getD i default).top ≤ u.top)
    ∧ ((fix_size_and_position text).getD i default).height
        ∈ (lineGroup text (lineKey ((fix_size_and_position text).getD i default))).map Text.height
    ∧ ((fix_size_and_position text).getD i default).top
        ∈ (lineGroup text (lineKey ((fix_size_and_position text).getD i default))).map Text.top
    ∧ fix_size_and_position ([] : List Text) = [] := by
  have hgi := getD_fix text i hi
  have hgj := getD_fix text j hj
  rw [hgi, hgj] at hkey ⊢
  have hk2 : lineKey (text.getD i default) = lineKey (text.getD j default) := hkey
  have hne : lineGroup text (lineKey (text.getD i default)) ≠ [] :=
    List.ne_nil_of_mem (getD_mem_lineGroup text i hi)
  have hneH : (lineGroup text (lineKey (text.getD i default))).map Text.height ≠ [] :=
    fun hm => hne (List.map_eq_nil_iff.mp hm)
  have hneT : (lineGroup text (lineKey (text.getD i default))).map Text.top ≠ [] :=
    fun hm => hne (List.map_eq_nil_iff.mp hm)
  refine ⟨?_, ?_, ?_, ?_, ?_, rfl⟩
  · show pymin ((lineGroup text (lineKey (text.getD i default))).map Text.top)
        = pymin ((lineGroup text (lineKey (text.getD j default))).map Text.top)
    rw [hk2]
  · show pymax ((lineGroup text (lineKey (text.getD i default))).map Text.height)
        = pymax ((lineGroup text (lineKey (text.getD j default))).map Text.height)
    rw [hk2]
  · intro u hu
    exact ⟨le_pymax _ _ (List.mem_map_of_mem Text.height hu),
           pymin_le _ _ (List.mem_map_of_mem Text.top hu)⟩
  · exact pymax_mem _ hneH
  · exact pymin_mem _ hneT

/-- Witness for C1 on the spec §8 scenario: the two tokens of line one share
top 98 and height 14, the extrema of their group, and the empty input is a
no-op. -/
theorem fix_grouping_invariant_witness :
    ((fix_size_and_position sampleTokens).getD 0 default).top
        = ((fix_size_and_position sampleTokens).getD 1 default).top
    ∧ ((fix_size_and_position sampleTokens).getD 0 default).height
        = ((fix_size_and_position sampleTokens).getD 1 default).height
    ∧ (∀ u ∈ lineGroup sampleTokens
          (lineKey ((fix_size_and_position sampleTokens).getD 0 default)),
        u.height ≤ ((fix_size_and_position sampleTokens).getD 0 default).height
        ∧ ((fix_size_and_position sampleTokens).getD 0 default).top ≤ u.top)
    ∧ ((fix_size_and_position sampleTokens).getD 0 default).height
        ∈ (lineGroup sampleTokens
            (lineKey ((fix_size_and_position sampleTokens).getD 0 default))).map Text.height
    ∧ ((fix_size_and_position sampleTokens).getD 0 default).top
        ∈ (lineGroup sampleTokens
            (lineKey ((fix_size_and_position sampleTokens).getD 0 default))).map Text.top
    ∧ fix_size_and_position ([] : List Text) = [] :=
  fix_grouping_invariant sampleTokens 0 1 (by decide) (by decide) (by decide)

/-- C2: `get_plain_text` returns exactly the string of the reference
algorithm of spec §4.4: no separator before the first token, a newline before
a token whose `line` field differs from the previous token's (only the `line`
field is compared), a single space otherwise, raw token texts, one final
trim, and the empty string on the empty list. -/
theorem get_plain_text_eq_specReduce (text : List Text) :
    get_plain_text text = specReduce text := by
  cases text with
  | nil => rfl
  | cons t rest =>
    rw [get_plain_text, if_neg (by simp), plainLoop_none, stripChars_newline]
    rfl

/-- C3: for two tokens present in the sequence, the Range Selector returns
the inclusive contiguous slice between their two indices in original order,
is symmetric in the two tokens, and applied to `a` and `a` returns exactly
`[a]`. -/
theorem selectRange_slice (seq : List Text) (a b : Text) (ha : a ∈ seq) (hb : b ∈ seq) :
    (∃ i j, pyIndex seq a = some i ∧ pyIndex seq b = some j ∧
        selectRange seq a b = .ok ((seq.drop (min i j)).take (max i j + 1 - min i j)))
    ∧ selectRange seq a b = selectRange seq b a
    ∧ selectRange seq a a = .ok [a] := by
  obtain ⟨i, hi⟩ := pyIndex_isSome_of_mem seq a ha
  obtain ⟨j, hj⟩ := pyIndex_isSome_of_mem seq b hb
  have hslice : ∀ lo hi2 : Nat, lo ≤ hi2 →
      filterRange 0 lo hi2 seq = (seq.drop lo).take (hi2 + 1 - lo) := by
    intro lo hi2 hle
    have h := filterRange_eq_slice lo hi2 hle seq 0
    simpa using h
  refine ⟨⟨i, j, hi, hj, ?_⟩, ?_, ?_⟩
  · simp only [selectRange, hi, hj]
    rw [hslice (min i j) (max i j) min_le_max]
  · simp only [selectRange, hi, hj]
    rw [Nat.min_comm j i, Nat.max_comm j i]
  · simp only [selectRange, hi]
    rw [min_self, max_self, hslice i i (le_refl i)]
    have hsp := pyIndex_spec seq a i hi
    rw [show i + 1 - i = 1 by omega, drop_take_one seq i hsp.1, hsp.2]

/-- Witness for C3: selecting from the first to the last sample token, in
either order, yields the whole sequence; a degenerate selection yields one
token. -/
theorem selectRange_slice_witness :
    (∃ i j, pyIndex sampleTokens tokA = some i ∧ pyIndex sampleTokens tokC = some j ∧
        selectRange sampleTokens tokA tokC
          = .ok ((sampleTokens.drop (min i j)).take (max i j + 1 - min i j)))
    ∧ selectRange sampleTokens tokA tokC = selectRange sampleTokens tokC tokA
    ∧ selectRange sampleTokens tokA tokA = .ok [tokA] :=
  selectRange_slice sampleTokens tokA tokC (by decide) (by decide)

/-- C4: the Line Normalizer changes only `top` and `height`: length, order
and every other field of every token are untouched. -/
theorem fix_frame_fields (text : List Text) (j : Nat) (hj : j < text.length) :
    (fix_size_and_position text).length = text.length
    ∧ ((fix_size_and_position text).getD j default).level = (text.getD j default).level
    ∧ ((fix_size_and_position text).getD j default).page = (text.getD j default).page
    ∧ ((fix_size_and_position text).getD j default).block = (text.getD j default).block
    ∧ ((fix_size_and_position text).getD j default).paragraph
        = (text.getD j default).paragraph
    ∧ ((fix_size_and_position text).getD j default).line = (text.getD j default).line
    ∧ ((fix_size_and_position text).getD j default).word = (text.getD j default).word
    ∧ ((fix_size_and_position text).getD j default).left = (text.getD j default).left
    ∧ ((fix_size_and_position text).getD j default).width = (text.getD j default).width
    ∧ ((fix_size_and_position text).getD j default).conf = (text.getD j default).conf
    ∧ ((fix_size_and_position text).getD j default).text = (text.getD j default).text := by
  rw [getD_fix text j hj]
  exact ⟨length_fix text, rfl, rfl, rfl, rfl, rfl, rfl, rfl, rfl, rfl, rfl⟩

/-- Witness for C4 on the first sample token. -/
theorem fix_frame_fields_witness :
    (fix_size_and_position sampleTokens).length = sampleTokens.length
    ∧ ((fix_size_and_position sampleTokens).getD 0 default).level
        = (sampleTokens.getD 0 default).level
    ∧ ((fix_size_and_position sampleTokens).getD 0 default).page
        = (sampleTokens.getD 0 default).page
    ∧ ((fix_size_and_position sampleTokens).getD 0 default).block
        = (sampleTokens.getD 0 default).block
    ∧ ((fix_size_and_position sampleTokens).getD 0 default).paragraph
        = (sampleTokens.getD 0 default).paragraph
    ∧ ((fix_size_and_position sampleTokens).getD 0 default).line
        = (sampleTokens.getD 0 default).line
    ∧ ((fix_size_and_position sampleTokens).getD 0 default).word
        = (sampleTokens.getD 0 default).word
    ∧ ((fix_size_and_position sampleTokens).getD 0 default).left
        = (sampleTokens.getD 0 default).left
    ∧ ((fix_size_and_position sampleTokens).getD 0 default).width
        = (sampleTokens.getD 0 default).width
    ∧ ((fix_size_and_position sampleTokens).getD 0 default).conf
        = (sampleTokens.getD 0 default).conf
    ∧ ((fix_size_and_position sampleTokens).getD 0 default).text
        = (sampleTokens.getD 0 default).text :=
  fix_frame_fields sampleTokens 0 (by decide)

/-- C5: running the Line Normalizer twice yields the same result (in
particular the same `top` and `height` of every token) as running it once. -/
theorem fix_idempotent (text : List Text) :
    fix_size_and_position (fix_size_and_position text) = fix_size_and_position text := by
  rw [fix_size_and_position_eq_normalizeSpec (fix_size_and_position text),
      fix_size_and_position_eq_normalizeSpec text, normalizeSpec_idem]

/-- C6: token construction succeeds exactly when every required field is
present and every numeric field parses (otherwise it fails with a
`MalformedRecord` error), and one malformed row makes the whole batch fail
with no partial token list. -/
theorem from_row_success_and_batch (row : Row) (rows : List Row) (b : Bool) (r : Row)
    (hr : r ∈ rows) (he : ∃ e, from_row r = .error e) :
    ((∃ t, from_row row = .ok t) ↔ goodRow row = true)
    ∧ (∃ e, get_text rows b = .error e) :=
  ⟨from_row_ok_iff row, get_text_error_of_mem rows r b hr he⟩

/-- Witness for C6: a well-formed row constructs, and a row missing its
`level` field fails the whole batch. -/
theorem from_row_success_and_batch_witness :
    ((∃ t, from_row rowA = .ok t) ↔ goodRow rowA = true)
    ∧ (∃ e, get_text [rowA, rowBad] true = .error e) :=
  from_row_success_and_batch rowA [rowA, rowBad] true rowBad (by decide)
    ⟨.keyError "level", by decide⟩

/-- C7: the Range Selector fails with `UnknownToken` whenever either given
token is absent from the canonical sequence; over the empty sequence every
selection is such a failure. -/
theorem selectRange_unknownToken (seq : List Text) (a b : Text)
    (h : a ∉ seq ∨ b ∉ seq) : selectRange seq a b = .error .unknownToken := by
  rcases h with h | h
  · cases hb2 : pyIndex seq b <;>
      simp [selectRange, (pyIndex_eq_none seq a).mpr h, hb2]
  · cases ha2 : pyIndex seq a <;>
      simp [selectRange, (pyIndex_eq_none seq b).mpr h, ha2]

/-- Witness for C7: any selection over the empty sequence is `UnknownToken`. -/
theorem selectRange_unknownToken_witness :
    selectRange [] tokA tokA = .error .unknownToken :=
  selectRange_unknownToken [] tokA tokA (Or.inl (by decide))

/-- C8: by default batch construction keeps, in source order, exactly the
tokens whose text is nonempty after trimming; with `include_empty` it keeps
them all. -/
theorem get_text_default_filters (rows : List Row) (ts : List Text)
    (h : rowsToTokens rows = .ok ts) :
    get_text rows true = .ok ts
    ∧ get_text rows = .ok (ts.filter fun t => decide (pyStrip t.text ≠ ""))
    ∧ List.Sublist (ts.filter fun t => decide (pyStrip t.text ≠ "")) ts
    ∧ (∀ t ∈ ts.filter fun t => decide (pyStrip t.text ≠ ""), pyStrip t.text ≠ "")
    ∧ ∀ t ∈ ts, pyStrip t.text ≠ "" →
        t ∈ ts.filter fun t => decide (pyStrip t.text ≠ "") := by
  refine ⟨by simp [get_text, h], by simp [get_text, h], List.filter_sublist ts, ?_, ?_⟩
  · intro t ht
    exact of_decide_eq_true (List.mem_filter.mp ht).2
  · intro t ht hw
    exact List.mem_filter.mpr ⟨ht, decide_eq_true hw⟩

/-- Witness for C8: the whitespace-only token is dropped by default and kept
with `include_empty`. -/
theorem get_text_default_filters_witness :
    get_text [rowA, rowWS] true = .ok [tokA, tokWS]
    ∧ get_text [rowA, rowWS]
        = .ok ([tokA, tokWS].filter fun t => decide (pyStrip t.text ≠ ""))
    ∧ List.Sublist ([tokA, tokWS].filter fun t => decide (pyStrip t.text ≠ ""))
        [tokA, tokWS]
    ∧ (∀ t ∈ [tokA, tokWS].filter fun t => decide (pyStrip t.text ≠ ""),
        pyStrip t.text ≠ "")
    ∧ ∀ t ∈ [tokA, tokWS], pyStrip t.text ≠ "" →
        t ∈ [tokA, tokWS].filter fun t => decide (pyStrip t.text ≠ "") :=
  get_text_default_filters [rowA, rowWS] [tokA, tokWS] (by decide)

/-- C9: normalization only grows a token's box vertically: height never
shrinks and top never moves down. -/
theorem fix_monotone_geometry (text : List Text) (j : Nat) (hj : j < text.length) :
    (text.getD j default).height ≤ ((fix_size_and_position text).getD j default).height
    ∧ ((fix_size_and_position text).getD j default).top ≤ (text.getD j default).top := by
  rw [getD_fix text j hj]
  exact ⟨le_pymax _ _ (List.mem_map_of_mem Text.height (getD_mem_lineGroup text j hj)),
         pymin_le _ _ (List.mem_map_of_mem Text.top (getD_mem_lineGroup text j hj))⟩

/-- Witness for C9 on the first sample token. -/
theorem fix_monotone_geometry_witness :
    (sampleTokens.getD 0 default).height
        ≤ ((fix_size_and_position sampleTokens).getD 0 default).height
    ∧ ((fix_size_and_position sampleTokens).getD 0 default).top
        ≤ (sampleTokens.getD 0 default).top :=
  fix_monotone_geometry sampleTokens 0 (by decide)

/-- C10: construction runs on every raw row before the empty-text filter, so
a malformed row fails the whole default batch even when its text is
whitespace-only and would have been filtered out. -/
theorem construction_precedes_filter (rows : List Row) (r : Row) (v : String)
    (hr : r ∈ rows) (he : ∃ e, from_row r = .error e)
    (htext : rowGet r "text" = .ok v) (hws : pyStrip v = "") :
    ∃ e, get_text rows = .error e :=
  get_text_error_of_mem rows r false hr he

/-- Witness for C10: the malformed row carries whitespace-only text, yet the
default batch fails. -/
theorem construction_precedes_filter_witness :
    ∃ e, get_text [rowA, rowBad] = .error e :=
  construction_precedes_filter [rowA, rowBad] rowBad "   " (by decide)
    ⟨.keyError "level", by decide⟩ (by decide) (by decide)
